import Mathlib

/-!
Verification of `src/assets/font/subset_font.js` (wsl-dashboard).

The script is a build-time font-subsetting utility with three stages:
file discovery (`getAllFiles`), code-point extraction (`extractUnicodes`),
and subset & publish (top-level script driving the external `fontmin`
engine).  We embed each stage shallowly:

* Text content is a `List Nat` of UTF-16 code units (every character the
  regex cares about is ASCII, and decoded code points are kept as `Nat`
  so that JS `String.fromCodePoint` range behaviour is modelled exactly).
* The regex loop `while ((match = regex.exec(content)) !== null)` with
  `/\\u\{([0-9a-fA-F]+)\}/g` is embedded as `scanEscapes`: at each
  position, a match fires iff the text is `\u{`, then a non-empty maximal
  run of hex digits, then `}`; on a match scanning resumes after the `}`,
  otherwise at the next character (leftmost-match semantics; the greedy
  `[0-9a-fA-F]+` followed by `}` never needs backtracking because `}` is
  not a hex digit).
* The filesystem and the external engine are explicit parameters of a
  one-run state function `runScript`.
-/

namespace SubsetFont

/-- ASCII code of `\` -/
def bslash : Nat := 92
/-- ASCII code of `u` -/
def uChar : Nat := 117
/-- ASCII code of `{` -/
def lbrace : Nat := 123
/-- ASCII code of `}` -/
def rbrace : Nat := 125

/-- The character class `[0-9a-fA-F]` of the extraction regex. -/
def isHexDigit (c : Nat) : Bool :=
  (48 ≤ c && c ≤ 57) || (97 ≤ c && c ≤ 102) || (65 ≤ c && c ≤ 70)

/-- Numeric value of one hex digit, as used by `parseInt(h, 16)`. -/
def hexVal (c : Nat) : Nat :=
  if 48 ≤ c && c ≤ 57 then c - 48
  else if 97 ≤ c && c ≤ 102 then c - 87
  else c - 55

/-- Value of a string of hex digits, as computed by `parseInt(match[1], 16)`. -/
def parseHex (ds : List Nat) : Nat :=
  ds.foldl (fun a d => 16 * a + hexVal d) 0

/-- The full text of one escape sequence `\u{ds}`. -/
def escapeSeq (ds : List Nat) : List Nat :=
  bslash :: uChar :: lbrace :: ds ++ [rbrace]

/-- One step bound of the scanner; fuel is the content length, which is
an upper bound on the number of scanning steps (each step consumes at
least one character). -/
def scanGo : Nat → List Nat → List Nat
  | _, [] => []
  | 0, _ :: _ => []
  | fuel + 1, c :: rest =>
    let digits := (rest.drop 2).takeWhile isHexDigit
    let after := (rest.drop 2).dropWhile isHexDigit
    if c = bslash ∧ rest.take 2 = [uChar, lbrace] ∧ digits ≠ [] ∧
        after.head? = some rbrace then
      parseHex digits :: scanGo fuel after.tail
    else
      scanGo fuel rest

/-- All values matched by `regex.exec` over one file's content, in match
order: the hex value of every occurrence of `\u{` + hex digits + `}`. -/
def scanEscapes (content : List Nat) : List Nat :=
  scanGo content.length content

/-- Behaviour of `String.fromCodePoint(v)`: succeeds iff `v` is a valid
code point (at most `0x10FFFF`); otherwise it throws a `RangeError`. -/
def fromCodePoint (v : Nat) : Option Nat :=
  if v ≤ 0x10FFFF then some v else none

/-- Behaviour of `unicodes.add(char)`: JS `Set` insertion keeps
first-insertion order and ignores duplicates. -/
def insertUnique (s : List Nat) (v : Nat) : List Nat :=
  if v ∈ s then s else s ++ [v]

/-- The inner `while` loop body of `extractUnicodes` for one file:
decode each matched value with `String.fromCodePoint` (propagating its
`RangeError` as `none`) and add it to the set. -/
def addMatches : List Nat → List Nat → Option (List Nat)
  | s, [] => some s
  | s, v :: rest =>
    match fromCodePoint v with
    | none => none
    | some c => addMatches (insertUnique s c) rest

/-- Embedding of `extractUnicodes(files)`: scan every file's content,
accumulate the decoded characters into a `Set`, and return
`Array.from(set).join('')` (here: the set's elements in insertion
order).  `none` models the uncaught `RangeError` thrown by
`String.fromCodePoint`. -/
def extractUnicodes (files : List (List Nat)) : Option (List Nat) :=
  files.foldlM (fun s content => addMatches s (scanEscapes content)) []

/-- Spec-side notion of a well-formed escape occurrence: somewhere in the
content stands `\u{`, one or more hex digits, `}`, and `v` is the value
of those digits. -/
def occursEscape (content : List Nat) (v : Nat) : Prop :=
  ∃ pre ds post, ds ≠ [] ∧ (∀ d ∈ ds, isHexDigit d = true) ∧
    content = pre ++ escapeSeq ds ++ post ∧ v = parseHex ds

/-! ### File discovery (`getAllFiles`) -/

/-- A directory-tree entry as seen through `fs.readdirSync` (names) and
`fs.statSync(...).isDirectory()` (kind). -/
inductive FSEntry where
  | file (name : String)
  | dir (name : String) (children : List FSEntry)

mutual
/-- The `files.forEach` loop of `getAllFiles` over the entries of one
directory, threading the accumulator `arrayOfFiles`. -/
def getAllFilesList : String → List FSEntry → List String → List String
  | _, [], acc => acc
  | dirPath, e :: rest, acc =>
    getAllFilesList dirPath rest (getAllFilesEntry dirPath e acc)

/-- One iteration of the loop body: recurse into a directory with path
`dirPath + "/" + name`; push `path.join(dirPath, "/", name)` for a file
whose name ends in `.slint`; skip any other file. -/
def getAllFilesEntry : String → FSEntry → List String → List String
  | dirPath, .file name, acc =>
    if name.endsWith ".slint" then acc ++ [dirPath ++ "/" ++ name] else acc
  | dirPath, .dir name children, acc =>
    getAllFilesList (dirPath ++ "/" ++ name) children acc
end

/-- Embedding of `getAllFiles(dirPath)` on a root directory whose
entries are `children` (the JS call leaves `arrayOfFiles` undefined, so
the accumulator starts as `[]`). -/
def getAllFiles (dirPath : String) (children : List FSEntry) : List String :=
  getAllFilesList dirPath children []

/-- Spec-side: `p` is the path of a file lying under the directory `d`
(whose entries are `cs`) at any depth, whose name ends with `.slint`. -/
inductive SlintFileUnder : String → List FSEntry → String → Prop where
  | here {d : String} {cs : List FSEntry} {name : String} :
      FSEntry.file name ∈ cs → name.endsWith ".slint" = true →
      SlintFileUnder d cs (d ++ "/" ++ name)
  | deeper {d : String} {cs : List FSEntry} {n : String} {sub : List FSEntry}
      {p : String} :
      FSEntry.dir n sub ∈ cs → SlintFileUnder (d ++ "/" ++ n) sub p →
      SlintFileUnder d cs p

/-! ### The top-level run (subset & publish)

The filesystem, the external `fontmin` engine and the fallibility of the
publish-step I/O calls are explicit parameters.  Paths are opaque
constants (their resolved absolute values are irrelevant to every
claim). -/

/-- Resolved value of `path.resolve(__dirname, 'segoeicons.ttf')`. -/
def FONT_SOURCE : String := "src/assets/font/segoeicons.ttf"
/-- Resolved value of `path.resolve(__dirname)`. -/
def OUTPUT_DIR : String := "src/assets/font"
/-- The constant `OUTPUT_FILE` of the script. -/
def OUTPUT_FILE : String := "icons.ttf"
/-- Resolved value of `path.resolve(__dirname, '../../build/temp_font')`. -/
def TEMP_DIR : String := "src/build/temp_font"

/-- Abstract state of the files the run touches.  Each `Option Nat`
field is the size of the named file when it exists. -/
structure World where
  fontSource : Option Nat
  published : Option Nat
  tempDirExists : Bool
  tempFile : Option Nat
deriving DecidableEq

/-- Modelled from the spec: the external subsetting engine (`fontmin`)
is an opaque third-party collaborator; the spec only constrains the
error/success callback contract and the output file name/location
convention.  The engine either calls back with an error, or succeeds,
having written an output file of the given size into the destination
directory (`none` when, unexpectedly, it wrote nothing there). -/
inductive EngineResult where
  | err
  | ok (produced : Option Nat)
deriving DecidableEq

/-- The options object passed to `Fontmin.glyph({ text, hinting })`. -/
structure GlyphConfig where
  text : List Nat
  hinting : Bool
deriving DecidableEq

/-- The configured fontmin pipeline: `.src(FONT_SOURCE)`,
`.use(Fontmin.glyph(...))`, `.dest(TEMP_DIR)`. -/
structure FontminConfig where
  src : String
  glyph : GlyphConfig
  dest : String
deriving DecidableEq

/-- Which I/O call inside the `try` block of the `fontmin.run` callback
throws, if any: `atCopy` is `fs.copyFileSync(generatedFile, targetFile)`
throwing, `atCleanup` is the first cleanup call
(`fs.unlinkSync(generatedFile)`) throwing. -/
inductive PublishFailure where
  | noFailure
  | atCopy
  | atCleanup
deriving DecidableEq

/-- Observable outcome of one run: final file state, the process exit
code, the fontmin invocation if the run reached it, and whether the
script called `console.error`. -/
structure RunOutcome where
  world : World
  exitCode : Nat
  engineCall : Option FontminConfig
  errorLogged : Bool
deriving DecidableEq

/-- One run of the top-level script, from the `FONT_SOURCE` existence
check down to process exit.  `files` are the contents of the discovered
`.slint` files, `engine` the behaviour of the external engine on this
run, `pubFail` which publish-step I/O call (if any) throws.  A normal
return from the callback lets node exit with code 0; an uncaught
exception makes it exit with code 1. -/
def runScript (w : World) (files : List (List Nat)) (engine : EngineResult)
    (pubFail : PublishFailure) : RunOutcome :=
  if w.fontSource.isNone then
    -- console.error(`Error: Source font not found ...`); process.exit(1)
    ⟨w, 1, none, true⟩
  else
    match extractUnicodes files with
    | none =>
      -- String.fromCodePoint threw a RangeError: uncaught, node exits 1
      ⟨w, 1, none, false⟩
    | some text =>
      if text.length = 0 then
        -- console.warn("No icons found! ..."); process.exit(0)
        ⟨w, 0, none, false⟩
      else
        -- fs.mkdirSync(TEMP_DIR, { recursive: true }) if it does not exist
        let w1 : World := { w with tempDirExists := true }
        let cfg : FontminConfig := ⟨FONT_SOURCE, ⟨text, false⟩, TEMP_DIR⟩
        match engine with
        | .err =>
          -- console.error('Error during font subsetting:', err); process.exit(1)
          ⟨w1, 1, some cfg, true⟩
        | .ok produced =>
          let newTemp : Option Nat :=
            match produced with
            | some s => some s
            | none => w1.tempFile
          let w2 : World := { w1 with tempFile := newTemp }
          match w2.tempFile with
          | none =>
            -- console.error('Expected output file not found in temp:', ...);
            -- the callback returns and node exits normally
            ⟨w2, 0, some cfg, true⟩
          | some s =>
            -- fs.unlinkSync(targetFile) if it exists, then copy / cleanup
            let w3 : World := { w2 with published := none }
            match pubFail with
            | .atCopy =>
              -- catch: console.error('Error moving file:', e); node exits 0
              ⟨w3, 0, some cfg, true⟩
            | .atCleanup =>
              -- copy succeeded before the cleanup call threw and was caught
              ⟨{ w3 with published := some s }, 0, some cfg, true⟩
            | .noFailure =>
              let w4 : World :=
                { w3 with
                  published := some s
                  tempFile := none
                  tempDirExists := false }
              ⟨w4, 0, some cfg, false⟩

/-! ### Helper lemmas about the scanner -/

lemma takeWhile_all_append (p : Nat → Bool) (ds l : List Nat)
    (h : ∀ d ∈ ds, p d = true) :
    (ds ++ l).takeWhile p = ds ++ l.takeWhile p := by
  induction ds with
  | nil => simp
  | cons d ds ih => simp_all [List.takeWhile]

lemma dropWhile_all_append (p : Nat → Bool) (ds l : List Nat)
    (h : ∀ d ∈ ds, p d = true) :
    (ds ++ l).dropWhile p = l.dropWhile p := by
  induction ds with
  | nil => simp
  | cons d ds ih => simp_all [List.dropWhile]

lemma rbrace_not_hex : isHexDigit rbrace = false := by decide

lemma bslash_not_hex : isHexDigit bslash = false := by decide

/-- No character strictly inside an escape sequence is a backslash, so a
second escape cannot start inside a match of the first. -/
lemma bslash_not_mem_escTail (ds : List Nat)
    (h : ∀ d ∈ ds, isHexDigit d = true) :
    bslash ∉ uChar :: lbrace :: (ds ++ [rbrace]) := by
  intro hm
  simp only [List.mem_cons, List.mem_append, List.mem_singleton] at hm
  rcases hm with h1 | h1 | h1 | h1
  · exact absurd h1 (by decide)
  · exact absurd h1 (by decide)
  · have := h _ h1
    rw [bslash_not_hex] at this
    exact Bool.false_ne_true this
  · exact absurd h1 (by decide)

/-- Two hex-digit runs closed by `}` inside the same text agree. -/
lemma hexRun_unique {ds ds' x y : List Nat}
    (h : ∀ d ∈ ds, isHexDigit d = true) (h' : ∀ d ∈ ds', isHexDigit d = true)
    (e : ds ++ rbrace :: x = ds' ++ rbrace :: y) : ds = ds' ∧ x = y := by
  have t : (ds ++ rbrace :: x).takeWhile isHexDigit = ds := by
    rw [takeWhile_all_append _ _ _ h, List.takeWhile_cons, rbrace_not_hex]
    simp
  have t' : (ds' ++ rbrace :: y).takeWhile isHexDigit = ds' := by
    rw [takeWhile_all_append _ _ _ h', List.takeWhile_cons, rbrace_not_hex]
    simp
  have hds : ds = ds' := by rw [← t, ← t', e]
  refine ⟨hds, ?_⟩
  subst hds
  have := List.append_cancel_left e
  exact List.cons.inj this |>.2

lemma occursEscape_nil (v : Nat) : ¬ occursEscape [] v := by
  rintro ⟨pre, ds, post, hne, _, heq, _⟩
  have := congrArg List.length heq
  simp [escapeSeq] at this
  omega

lemma occursEscape_append_left (t l : List Nat) (v : Nat)
    (h : occursEscape l v) : occursEscape (t ++ l) v := by
  rcases h with ⟨pre, ds, post, hne, hhex, heq, hv⟩
  exact ⟨t ++ pre, ds, post, hne, hhex, by rw [heq]; simp [List.append_assoc], hv⟩

lemma occursEscape_cons (c : Nat) (l : List Nat) (v : Nat)
    (h : occursEscape l v) : occursEscape (c :: l) v :=
  occursEscape_append_left [c] l v h

lemma scanGo_cons_pos (fuel c : Nat) (rest : List Nat)
    (hC : c = bslash ∧ rest.take 2 = [uChar, lbrace] ∧
      (rest.drop 2).takeWhile isHexDigit ≠ [] ∧
      ((rest.drop 2).dropWhile isHexDigit).head? = some rbrace) :
    scanGo (fuel + 1) (c :: rest) =
      parseHex ((rest.drop 2).takeWhile isHexDigit) ::
        scanGo fuel ((rest.drop 2).dropWhile isHexDigit).tail := by
  simp only [scanGo]
  rw [if_pos hC]

lemma scanGo_cons_neg (fuel c : Nat) (rest : List Nat)
    (hC : ¬ (c = bslash ∧ rest.take 2 = [uChar, lbrace] ∧
      (rest.drop 2).takeWhile isHexDigit ≠ [] ∧
      ((rest.drop 2).dropWhile isHexDigit).head? = some rbrace)) :
    scanGo (fuel + 1) (c :: rest) = scanGo fuel rest := by
  simp only [scanGo]
  rw [if_neg hC]

/-- When the match condition holds, the whole text decomposes as one
escape sequence followed by the remainder of the scan. -/
lemma cons_eq_escape_append (c : Nat) (rest : List Nat)
    (hC : c = bslash ∧ rest.take 2 = [uChar, lbrace] ∧
      (rest.drop 2).takeWhile isHexDigit ≠ [] ∧
      ((rest.drop 2).dropWhile isHexDigit).head? = some rbrace) :
    c :: rest = escapeSeq ((rest.drop 2).takeWhile isHexDigit) ++
      ((rest.drop 2).dropWhile isHexDigit).tail := by
  obtain ⟨hc, htake, -, hhead⟩ := hC
  have hsplit2 : rest = rest.take 2 ++ rest.drop 2 := (List.take_append_drop 2 rest).symm
  have hsplitW : rest.drop 2 =
      (rest.drop 2).takeWhile isHexDigit ++ (rest.drop 2).dropWhile isHexDigit :=
    (List.takeWhile_append_dropWhile isHexDigit (rest.drop 2)).symm
  have hafter : (rest.drop 2).dropWhile isHexDigit =
      rbrace :: ((rest.drop 2).dropWhile isHexDigit).tail := by
    cases haf : (rest.drop 2).dropWhile isHexDigit with
    | nil => rw [haf] at hhead; simp at hhead
    | cons a t =>
      rw [haf] at hhead
      simp at hhead
      rw [hhead]
      simp
  subst hc
  conv_lhs => rw [hsplit2, htake, hsplitW, hafter]
  simp [escapeSeq]

lemma after_tail_length_le (rest : List Nat) :
    (((rest.drop 2).dropWhile isHexDigit).tail).length ≤ rest.length := by
  have h1 : (((rest.drop 2).dropWhile isHexDigit).tail).length ≤
      ((rest.drop 2).dropWhile isHexDigit).length := by
    cases (rest.drop 2).dropWhile isHexDigit <;> simp
  have h2 : ((rest.drop 2).dropWhile isHexDigit).length ≤ (rest.drop 2).length :=
    (List.dropWhile_sublist _).length_le
  have h3 : (rest.drop 2).length ≤ rest.length := by
    rw [List.length_drop]
    omega
  omega

/-- The scanner finds a value iff a well-formed escape with that value
occurs in the text: soundness and completeness of `scanGo` against the
spec-side `occursEscape`. -/
lemma mem_scanGo_iff (fuel : Nat) :
    ∀ l : List Nat, l.length ≤ fuel → ∀ v : Nat,
      (v ∈ scanGo fuel l ↔ occursEscape l v) := by
  induction fuel with
  | zero =>
    intro l hl v
    have hnil : l = [] := List.length_eq_zero.1 (Nat.le_zero.1 hl)
    subst hnil
    constructor
    · intro h
      simp [scanGo] at h
    · intro h
      exact absurd h (occursEscape_nil v)
  | succ fuel ih =>
    intro l hl v
    cases l with
    | nil =>
      constructor
      · intro h
        simp [scanGo] at h
      · intro h
        exact absurd h (occursEscape_nil v)
    | cons c rest =>
      have hrest : rest.length ≤ fuel := by
        simp [List.length_cons] at hl
        omega
      by_cases hC : (c = bslash ∧ rest.take 2 = [uChar, lbrace] ∧
        (rest.drop 2).takeWhile isHexDigit ≠ [] ∧
        ((rest.drop 2).dropWhile isHexDigit).head? = some rbrace)
      · have hsplit := cons_eq_escape_append c rest hC
        have hhex : ∀ d ∈ (rest.drop 2).takeWhile isHexDigit, isHexDigit d = true :=
          fun _ hd => List.mem_takeWhile_imp hd
        have htl : (((rest.drop 2).dropWhile isHexDigit).tail).length ≤ fuel := by
          have := after_tail_length_le rest
          omega
        rw [scanGo_cons_pos fuel c rest hC]
        constructor
        · intro hv
          rcases List.mem_cons.1 hv with hveq | hvmem
          · refine ⟨[], (rest.drop 2).takeWhile isHexDigit,
              ((rest.drop 2).dropWhile isHexDigit).tail, hC.2.2.1, hhex, ?_, hveq⟩
            rw [List.nil_append, hsplit]
          · have hocc := (ih _ htl v).1 hvmem
            have h2 := occursEscape_append_left
              (escapeSeq ((rest.drop 2).takeWhile isHexDigit)) _ v hocc
            rw [← hsplit] at h2
            exact h2
        · rintro ⟨pre, ds, post, hdsne, hdshex, heq, hveq⟩
          rw [hsplit, List.append_assoc] at heq
          rcases List.append_eq_append_iff.1 heq with ⟨a, hpre, htail⟩ | ⟨c', hesc, hrest2⟩
          · have hocc : occursEscape (((rest.drop 2).dropWhile isHexDigit).tail) v := by
              refine ⟨a, ds, post, hdsne, hdshex, ?_, hveq⟩
              rw [htail, List.append_assoc]
            exact List.mem_cons.2 (Or.inr ((ih _ htl v).2 hocc))
          · cases c' with
            | nil =>
              simp only [List.append_nil] at hesc
              simp only [List.nil_append] at hrest2
              have hocc : occursEscape (((rest.drop 2).dropWhile isHexDigit).tail) v := by
                refine ⟨[], ds, post, hdsne, hdshex, ?_, hveq⟩
                rw [List.nil_append, hrest2]
              exact List.mem_cons.2 (Or.inr ((ih _ htl v).2 hocc))
            | cons e c'' =>
              have he : e = bslash := by
                have h0 : escapeSeq ds ++ post = e :: (c'' ++
                    ((rest.drop 2).dropWhile isHexDigit).tail) := by
                  rw [hrest2, List.cons_append]
                simp only [escapeSeq, List.cons_append] at h0
                exact (List.cons.inj h0).1.symm
              cases pre with
              | nil =>
                simp only [List.nil_append] at hesc
                rw [← hesc] at hrest2
                simp only [escapeSeq, List.cons_append, List.append_assoc,
                  List.singleton_append, List.cons.injEq] at hrest2
                obtain ⟨-, -, -, hruns⟩ := hrest2
                obtain ⟨hds, -⟩ := hexRun_unique hdshex hhex hruns
                subst hds
                exact List.mem_cons.2 (Or.inl hveq)
              | cons p pre' =>
                exfalso
                simp only [escapeSeq, List.cons_append, List.cons.injEq] at hesc
                obtain ⟨-, htl2⟩ := hesc
                apply bslash_not_mem_escTail _ hhex
                rw [htl2, ← he]
                exact List.mem_append.2 (Or.inr (List.mem_cons_self _ _))
      · rw [scanGo_cons_neg fuel c rest hC, ih rest hrest v]
        constructor
        · exact occursEscape_cons c rest v
        · rintro ⟨pre, ds, post, hdsne, hdshex, heq, hveq⟩
          cases pre with
          | cons p pre' =>
            simp only [List.cons_append, List.cons.injEq] at heq
            exact ⟨pre', ds, post, hdsne, hdshex, heq.2, hveq⟩
          | nil =>
            exfalso
            apply hC
            simp only [List.nil_append, escapeSeq, List.cons_append,
              List.cons.injEq] at heq
            obtain ⟨hc, hrest0⟩ := heq
            have hrw : rest = uChar :: lbrace :: (ds ++ rbrace :: post) := by
              rw [hrest0]
              simp
            refine ⟨hc, ?_, ?_, ?_⟩
            · rw [hrw]
              rfl
            · rw [hrw]
              simp only [List.drop_succ_cons, List.drop_zero]
              rw [takeWhile_all_append _ _ _ hdshex, List.takeWhile_cons, rbrace_not_hex]
              simpa using hdsne
            · rw [hrw]
              simp only [List.drop_succ_cons, List.drop_zero]
              rw [dropWhile_all_append _ _ _ hdshex, List.dropWhile_cons, rbrace_not_hex]
              simp

lemma mem_scanEscapes_iff (content : List Nat) (v : Nat) :
    v ∈ scanEscapes content ↔ occursEscape content v :=
  mem_scanGo_iff content.length content le_rfl v

/-! ### The set accumulated by `extractUnicodes` -/

lemma mem_insertUnique (s : List Nat) (v x : Nat) :
    x ∈ insertUnique s v ↔ x ∈ s ∨ x = v := by
  unfold insertUnique
  by_cases h : v ∈ s
  · rw [if_pos h]
    constructor
    · exact Or.inl
    · rintro (hx | rfl)
      · exact hx
      · exact h
  · rw [if_neg h]
    simp

lemma nodup_insertUnique (s : List Nat) (v : Nat) (h : s.Nodup) :
    (insertUnique s v).Nodup := by
  unfold insertUnique
  by_cases hv : v ∈ s
  · rwa [if_pos hv]
  · rw [if_neg hv]
    simpa [List.nodup_append] using ⟨h, hv⟩

lemma mem_foldl_insertUnique (vs : List Nat) :
    ∀ s x, (x ∈ vs.foldl insertUnique s ↔ x ∈ s ∨ x ∈ vs) := by
  induction vs with
  | nil => simp
  | cons v vs ih =>
    intro s x
    rw [List.foldl_cons, ih, mem_insertUnique]
    simp [or_assoc, List.mem_cons]

lemma nodup_foldl_insertUnique (vs : List Nat) :
    ∀ s, s.Nodup → (vs.foldl insertUnique s).Nodup := by
  induction vs with
  | nil => exact fun s h => h
  | cons v vs ih =>
    intro s h
    exact ih _ (nodup_insertUnique s v h)

lemma addMatches_eq_some (vs : List Nat) :
    ∀ s, (∀ v ∈ vs, v ≤ 0x10FFFF) →
      addMatches s vs = some (vs.foldl insertUnique s) := by
  induction vs with
  | nil => intro s _; rfl
  | cons v vs ih =>
    intro s h
    have hv : v ≤ 0x10FFFF := h v (List.mem_cons_self _ _)
    simp only [addMatches, fromCodePoint, if_pos hv, List.foldl_cons]
    exact ih _ fun w hw => h w (List.mem_cons_of_mem _ hw)

lemma addMatches_eq_none (vs : List Nat) :
    ∀ s, (∃ v ∈ vs, ¬ v ≤ 0x10FFFF) → addMatches s vs = none := by
  induction vs with
  | nil => rintro s ⟨v, hv, -⟩; cases hv
  | cons v vs ih =>
    rintro s ⟨w, hw, hbad⟩
    by_cases hv : v ≤ 0x10FFFF
    · simp only [addMatches, fromCodePoint, if_pos hv]
      rcases List.mem_cons.1 hw with rfl | hw'
      · exact absurd hv hbad
      · exact ih _ ⟨w, hw', hbad⟩
    · simp only [addMatches, fromCodePoint, if_neg hv]

lemma extract_fold_some (files : List (List Nat)) :
    ∀ s : List Nat,
      (∀ content ∈ files, ∀ v ∈ scanEscapes content, v ≤ 0x10FFFF) →
      ∃ r, files.foldlM (fun s content => addMatches s (scanEscapes content)) s
          = some r ∧
        (s.Nodup → r.Nodup) ∧
        ∀ x, (x ∈ r ↔ x ∈ s ∨ ∃ content ∈ files, x ∈ scanEscapes content) := by
  induction files with
  | nil =>
    intro s _
    refine ⟨s, rfl, fun h => h, ?_⟩
    simp
  | cons content files ih =>
    intro s h
    have hc := h content (List.mem_cons_self _ _)
    rw [List.foldlM_cons, addMatches_eq_some _ _ hc]
    obtain ⟨r, hr, hnd, hmem⟩ := ih ((scanEscapes content).foldl insertUnique s)
      (fun c hc' v hv => h c (List.mem_cons_of_mem _ hc') v hv)
    refine ⟨r, by simpa using hr, fun hs => hnd (nodup_foldl_insertUnique _ _ hs), ?_⟩
    intro x
    rw [hmem x, mem_foldl_insertUnique]
    constructor
    · rintro ((hx | hx) | ⟨c, hcmem, hx⟩)
      · exact Or.inl hx
      · exact Or.inr ⟨content, List.mem_cons_self _ _, hx⟩
      · exact Or.inr ⟨c, List.mem_cons_of_mem _ hcmem, hx⟩
    · rintro (hx | ⟨c, hcmem, hx⟩)
      · exact Or.inl (Or.inl hx)
      · rcases List.mem_cons.1 hcmem with rfl | hcmem'
        · exact Or.inl (Or.inr hx)
        · exact Or.inr ⟨c, hcmem', hx⟩

lemma extract_fold_none (files : List (List Nat)) :
    ∀ s, (∃ content ∈ files, ∃ v ∈ scanEscapes content, ¬ v ≤ 0x10FFFF) →
      files.foldlM (fun s content => addMatches s (scanEscapes content)) s
        = none := by
  induction files with
  | nil =>
    rintro s ⟨c, hc, -⟩
    cases hc
  | cons content files ih =>
    rintro s ⟨c, hc, v, hv, hbad⟩
    rw [List.foldlM_cons]
    rcases List.mem_cons.1 hc with rfl | hc'
    · rw [addMatches_eq_none _ _ ⟨v, hv, hbad⟩]
      rfl
    · by_cases hcval : ∀ w ∈ scanEscapes content, w ≤ 0x10FFFF
      · rw [addMatches_eq_some _ _ hcval]
        simpa using ih _ ⟨c, hc', v, hv, hbad⟩
      · push_neg at hcval
        obtain ⟨w, hw, hwbad⟩ := hcval
        rw [addMatches_eq_none _ _ ⟨w, hw, by omega⟩]
        rfl

/-! ### File discovery: `getAllFiles` returns exactly the `.slint` files -/

lemma getAllFilesList_nil (d : String) (acc : List String) :
    getAllFilesList d [] acc = acc := by
  simp [getAllFilesList]

lemma getAllFilesList_cons (d : String) (e : FSEntry) (rest : List FSEntry)
    (acc : List String) :
    getAllFilesList d (e :: rest) acc =
      getAllFilesList d rest (getAllFilesEntry d e acc) := by
  simp [getAllFilesList]

lemma getAllFilesEntry_file (d name : String) (acc : List String) :
    getAllFilesEntry d (.file name) acc =
      if name.endsWith ".slint" then acc ++ [d ++ "/" ++ name] else acc := by
  simp [getAllFilesEntry]

lemma getAllFilesEntry_dir (d name : String) (children : List FSEntry)
    (acc : List String) :
    getAllFilesEntry d (.dir name children) acc =
      getAllFilesList (d ++ "/" ++ name) children acc := by
  simp [getAllFilesEntry]

lemma slint_nil (d p : String) : ¬ SlintFileUnder d [] p := by
  intro h
  cases h with
  | here hmem _ => cases hmem
  | deeper hmem _ => cases hmem

lemma slint_cons_weaken (d : String) (e : FSEntry) (rest : List FSEntry)
    (p : String) (h : SlintFileUnder d rest p) :
    SlintFileUnder d (e :: rest) p := by
  cases h with
  | here hmem hend => exact .here (List.mem_cons_of_mem _ hmem) hend
  | deeper hmem hsub => exact .deeper (List.mem_cons_of_mem _ hmem) hsub

lemma slint_cons_file (d name : String) (rest : List FSEntry) (p : String) :
    SlintFileUnder d (.file name :: rest) p ↔
      (name.endsWith ".slint" = true ∧ p = d ++ "/" ++ name) ∨
        SlintFileUnder d rest p := by
  constructor
  · intro h
    cases h with
    | here hmem hend =>
      rcases List.mem_cons.1 hmem with heq | hmem'
      · injection heq with h1
        subst h1
        exact Or.inl ⟨hend, rfl⟩
      · exact Or.inr (.here hmem' hend)
    | deeper hmem hsub =>
      rcases List.mem_cons.1 hmem with heq | hmem'
      · exact FSEntry.noConfusion heq
      · exact Or.inr (.deeper hmem' hsub)
  · rintro (⟨hend, rfl⟩ | h)
    · exact .here (List.mem_cons_self _ _) hend
    · exact slint_cons_weaken _ _ _ _ h

lemma slint_cons_dir (d n : String) (sub rest : List FSEntry) (p : String) :
    SlintFileUnder d (.dir n sub :: rest) p ↔
      SlintFileUnder (d ++ "/" ++ n) sub p ∨ SlintFileUnder d rest p := by
  constructor
  · intro h
    cases h with
    | here hmem hend =>
      rcases List.mem_cons.1 hmem with heq | hmem'
      · exact FSEntry.noConfusion heq
      · exact Or.inr (.here hmem' hend)
    | deeper hmem hsub =>
      rcases List.mem_cons.1 hmem with heq | hmem'
      · injection heq with h1 h2
        subst h1
        subst h2
        exact Or.inl hsub
      · exact Or.inr (.deeper hmem' hsub)
  · rintro (h | h)
    · exact .deeper (List.mem_cons_self _ _) h
    · exact slint_cons_weaken _ _ _ _ h

lemma mem_getAllFilesList (n : Nat) :
    ∀ cs : List FSEntry, sizeOf cs ≤ n → ∀ (d : String) (acc : List String)
      (p : String),
      (p ∈ getAllFilesList d cs acc ↔ p ∈ acc ∨ SlintFileUnder d cs p) := by
  induction n with
  | zero =>
    intro cs h
    exfalso
    cases cs <;> simp at h
  | succ n ih =>
    intro cs h d acc p
    cases cs with
    | nil =>
      rw [getAllFilesList_nil]
      simp [slint_nil d p]
    | cons e rest =>
      cases e with
      | file name =>
        have hrest : sizeOf rest ≤ n := by
          simp at h
          omega
        rw [getAllFilesList_cons, ih rest hrest, getAllFilesEntry_file,
          slint_cons_file]
        by_cases hend : name.endsWith ".slint"
        · rw [if_pos hend]
          simp only [List.mem_append, List.mem_singleton, hend, true_and]
          exact or_assoc
        · rw [if_neg hend]
          simp only [hend, Bool.false_eq_true, false_and, false_or]
      | dir nm sub =>
        have hrest : sizeOf rest ≤ n := by
          simp at h
          omega
        have hsub : sizeOf sub ≤ n := by
          simp at h
          omega
        rw [getAllFilesList_cons, ih rest hrest, getAllFilesEntry_dir,
          ih sub hsub, slint_cons_dir]
        exact or_assoc

/-! ### Claims -/

/-- C1 (counterexample): as stated the claim fails: the content
consisting of the single well-formed (all hex digits) escape
`\u{110000}` contains a well-formed escape of value `0x110000`, yet
extraction produces no character set at all, because
`String.fromCodePoint(0x110000)` throws a `RangeError`; so no set
containing exactly the decoded escapes is returned. -/
theorem c1_overflow_counterexample :
    occursEscape (escapeSeq [49, 49, 48, 48, 48, 48]) 0x110000 ∧
    extractUnicodes [escapeSeq [49, 49, 48, 48, 48, 48]] = none := by
  constructor
  · exact ⟨[], [49, 49, 48, 48, 48, 48], [], by decide, by decide, by simp,
      by decide⟩
  · decide

/-- C1 (amended): for every list of file contents all of whose
well-formed hex escapes have values that are valid code points (at most
`0x10FFFF`), `extractUnicodes` returns a set that contains exactly the
characters decoded from the well-formed `\u{...}` escapes occurring in
the contents — each exactly once (the set is duplicate-free) no matter
how often an escape occurs, and nothing else (in particular a malformed
escape, one containing a non-hex digit, contributes nothing). -/
theorem extractUnicodes_spec (files : List (List Nat))
    (h : ∀ content ∈ files, ∀ v ∈ scanEscapes content, v ≤ 0x10FFFF) :
    ∃ r, extractUnicodes files = some r ∧ r.Nodup ∧
      ∀ x, (x ∈ r ↔ ∃ content ∈ files, occursEscape content x) := by
  obtain ⟨r, hr, hnd, hmem⟩ := extract_fold_some files [] h
  refine ⟨r, hr, hnd List.nodup_nil, fun x => ?_⟩
  rw [hmem x]
  simp only [List.not_mem_nil, false_or]
  constructor
  · rintro ⟨c, hc, hx⟩
    exact ⟨c, hc, (mem_scanEscapes_iff c x).1 hx⟩
  · rintro ⟨c, hc, hx⟩
    exact ⟨c, hc, (mem_scanEscapes_iff c x).2 hx⟩

/-- Witness for C1: two copies of `\u{E700}` plus the malformed escape
`\u{G}` yield the singleton set. -/
theorem extractUnicodes_spec_witness :
    (∀ content ∈ [escapeSeq [69, 55, 48, 48],
        [92, 117, 123, 71, 125] ++ escapeSeq [69, 55, 48, 48]],
      ∀ v ∈ scanEscapes content, v ≤ 0x10FFFF) ∧
    ∃ r, extractUnicodes [escapeSeq [69, 55, 48, 48],
        [92, 117, 123, 71, 125] ++ escapeSeq [69, 55, 48, 48]] = some r ∧
      r.Nodup ∧
      ∀ x, (x ∈ r ↔ ∃ content ∈ [escapeSeq [69, 55, 48, 48],
        [92, 117, 123, 71, 125] ++ escapeSeq [69, 55, 48, 48]],
          occursEscape content x) :=
  ⟨by decide, extractUnicodes_spec _ (by decide)⟩

/-- C2: `getAllFiles` on a root directory returns exactly the paths of
the files under it, at any depth, whose name ends with `.slint`; files
with other names are skipped and directories are recursed into but
never themselves returned (the spec-side `SlintFileUnder` only ever
produces file paths). -/
theorem getAllFiles_spec (d : String) (cs : List FSEntry) (p : String) :
    p ∈ getAllFiles d cs ↔ SlintFileUnder d cs p := by
  unfold getAllFiles
  rw [mem_getAllFilesList (sizeOf cs) cs le_rfl]
  simp

/-- C3: when the extracted character string is empty, the run exits
with code 0 before the subsetting step (no engine invocation), and the
whole file state — in particular the published output font — is left
exactly as it was. -/
theorem emptySet_skip (w : World) (files : List (List Nat))
    (engine : EngineResult) (pubFail : PublishFailure)
    (hfont : w.fontSource.isSome = true)
    (hempty : extractUnicodes files = some []) :
    runScript w files engine pubFail = ⟨w, 0, none, false⟩ := by
  have h1 : w.fontSource.isNone = false := by
    cases hfs : w.fontSource
    · rw [hfs] at hfont
      cases hfont
    · rfl
  simp [runScript, h1, hempty]

/-- Witness for C3: one file whose only escape `\u{G}` is malformed. -/
theorem emptySet_skip_witness :
    (⟨some 5, some 3, false, none⟩ : World).fontSource.isSome = true ∧
    extractUnicodes [[92, 117, 123, 71, 125]] = some [] ∧
    runScript ⟨some 5, some 3, false, none⟩ [[92, 117, 123, 71, 125]]
        .err .noFailure
      = ⟨⟨some 5, some 3, false, none⟩, 0, none, false⟩ :=
  ⟨by decide, by decide, emptySet_skip _ _ _ _ (by decide) (by decide)⟩

/-- C4 (counterexample): as stated the claim fails: when the engine
completes without error but the expected output file is absent from the
temp directory, the callback merely logs and returns, so node exits
normally — the exit code is 0, not 1 (the error is logged and the
published font is untouched, as the rest of the claim says). -/
theorem missingOutput_exitCode_counterexample :
    (runScript ⟨some 9, some 4, false, none⟩ [escapeSeq [69, 55, 48, 48]]
      (.ok none) .noFailure).exitCode = 0 ∧
    (runScript ⟨some 9, some 4, false, none⟩ [escapeSeq [69, 55, 48, 48]]
      (.ok none) .noFailure).exitCode ≠ 1 ∧
    (runScript ⟨some 9, some 4, false, none⟩ [escapeSeq [69, 55, 48, 48]]
      (.ok none) .noFailure).errorLogged = true ∧
    (runScript ⟨some 9, some 4, false, none⟩ [escapeSeq [69, 55, 48, 48]]
      (.ok none) .noFailure).world.published = some 4 := by
  refine ⟨by decide, by decide, by decide, by decide⟩

/-- C4 (amended): if the subsetting engine completes without error but
the expected output file is absent from the temporary directory, the
run logs an error and leaves the published font file unmodified, but
the process exits with code 0 (the callback returns without any abort
signal), not 1. -/
theorem missingOutput_spec (w : World) (files : List (List Nat))
    (text : List Nat) (pubFail : PublishFailure)
    (hfont : w.fontSource.isSome = true)
    (hex : extractUnicodes files = some text) (hne : text ≠ [])
    (htmp : w.tempFile = none) :
    runScript w files (.ok none) pubFail =
      ⟨{ w with tempDirExists := true }, 0,
        some ⟨FONT_SOURCE, ⟨text, false⟩, TEMP_DIR⟩, true⟩ := by
  obtain ⟨fs, pub, td, tf⟩ := w
  have h1 : (World.mk fs pub td tf).fontSource.isNone = false := by
    cases hfs : fs
    · rw [hfs] at hfont
      cases hfont
    · rfl
  simp only [World.tempFile] at htmp
  subst htmp
  simp [runScript, h1, hex, hne]

/-- Witness for C4 (amended) at a concrete world and one-escape file. -/
theorem missingOutput_spec_witness :
    (⟨some 9, some 4, false, none⟩ : World).fontSource.isSome = true ∧
    extractUnicodes [escapeSeq [69, 55, 48, 48]] = some [0xE700] ∧
    ([0xE700] : List Nat) ≠ [] ∧
    runScript ⟨some 9, some 4, false, none⟩ [escapeSeq [69, 55, 48, 48]]
        (.ok none) .noFailure =
      ⟨⟨some 9, some 4, true, none⟩, 0,
        some ⟨FONT_SOURCE, ⟨[0xE700], false⟩, TEMP_DIR⟩, true⟩ :=
  ⟨by decide, by decide, by decide,
    missingOutput_spec _ _ _ _ (by decide) (by decide) (by decide) (by decide)⟩

/-- C5: when the source font file is absent, the run exits with code 1
before doing anything else: the file state is untouched and the engine
is never invoked, whatever the scanned contents would have been. -/
theorem missingFont_abort (w : World) (files : List (List Nat))
    (engine : EngineResult) (pubFail : PublishFailure)
    (hfont : w.fontSource = none) :
    runScript w files engine pubFail = ⟨w, 1, none, true⟩ := by
  simp [runScript, hfont]

/-- Witness for C5. -/
theorem missingFont_abort_witness :
    (⟨none, some 3, false, none⟩ : World).fontSource = none ∧
    runScript ⟨none, some 3, false, none⟩ [escapeSeq [69, 55, 48, 48]]
        .err .atCopy
      = ⟨⟨none, some 3, false, none⟩, 1, none, true⟩ :=
  ⟨by decide, missingFont_abort _ _ _ _ (by decide)⟩

/-- C6: with a non-empty extracted set, a present source font, and an
engine run that succeeds and produces its output file (of size at most
the source font's size — the engine, per the spec, produces a reduced
font), the run publishes that file at the output path (overwriting
whatever was there), the published size is at most the source size, the
temporary file and directory are gone, and the process exits 0. -/
theorem publish_success (w : World) (files : List (List Nat))
    (text : List Nat) (srcSize s : Nat)
    (hfont : w.fontSource = some srcSize)
    (hex : extractUnicodes files = some text) (hne : text ≠ [])
    (hsize : s ≤ srcSize) :
    runScript w files (.ok (some s)) .noFailure =
      ⟨⟨some srcSize, some s, false, none⟩, 0,
        some ⟨FONT_SOURCE, ⟨text, false⟩, TEMP_DIR⟩, false⟩ ∧
      s ≤ srcSize := by
  obtain ⟨fs, pub, td, tf⟩ := w
  simp only [World.fontSource] at hfont
  subst hfont
  refine ⟨?_, hsize⟩
  simp [runScript, hex, hne]

/-- Witness for C6. -/
theorem publish_success_witness :
    (⟨some 9, some 4, true, some 7⟩ : World).fontSource = some 9 ∧
    extractUnicodes [escapeSeq [69, 55, 48, 48]] = some [0xE700] ∧
    ([0xE700] : List Nat) ≠ [] ∧ 2 ≤ 9 ∧
    (runScript ⟨some 9, some 4, true, some 7⟩ [escapeSeq [69, 55, 48, 48]]
        (.ok (some 2)) .noFailure =
      ⟨⟨some 9, some 2, false, none⟩, 0,
        some ⟨FONT_SOURCE, ⟨[0xE700], false⟩, TEMP_DIR⟩, false⟩ ∧
      2 ≤ 9) :=
  ⟨by decide, by decide, by decide, by decide,
    publish_success _ _ _ _ _ (by decide) (by decide) (by decide) (by decide)⟩

/-- C7: when the engine succeeds and its output is present but the copy
to the final output path throws, the exception is caught and logged and
the process still exits 0; since the pre-existing published font was
deleted just before the copy, no published font remains, and the
temporary file and directory are left in place.  A throw in the
subsequent cleanup is likewise caught and logged with exit code 0. -/
theorem copyFailure_spec (w : World) (files : List (List Nat))
    (text : List Nat) (s oldSize : Nat)
    (hfont : w.fontSource.isSome = true)
    (hex : extractUnicodes files = some text) (hne : text ≠ [])
    (hpub : w.published = some oldSize) :
    runScript w files (.ok (some s)) .atCopy =
      ⟨⟨w.fontSource, none, true, some s⟩, 0,
        some ⟨FONT_SOURCE, ⟨text, false⟩, TEMP_DIR⟩, true⟩ ∧
    (runScript w files (.ok (some s)) .atCleanup).exitCode = 0 ∧
    (runScript w files (.ok (some s)) .atCleanup).errorLogged = true := by
  obtain ⟨fs, pub, td, tf⟩ := w
  have h1 : (World.mk fs pub td tf).fontSource.isNone = false := by
    cases hfs : fs
    · rw [hfs] at hfont
      cases hfont
    · rfl
  refine ⟨?_, ?_, ?_⟩ <;> simp [runScript, h1, hex, hne]

/-- Witness for C7. -/
theorem copyFailure_spec_witness :
    (⟨some 9, some 4, false, none⟩ : World).fontSource.isSome = true ∧
    extractUnicodes [escapeSeq [69, 55, 48, 48]] = some [0xE700] ∧
    ([0xE700] : List Nat) ≠ [] ∧
    (⟨some 9, some 4, false, none⟩ : World).published = some 4 ∧
    (runScript ⟨some 9, some 4, false, none⟩ [escapeSeq [69, 55, 48, 48]]
        (.ok (some 2)) .atCopy =
      ⟨⟨some 9, none, true, some 2⟩, 0,
        some ⟨FONT_SOURCE, ⟨[0xE700], false⟩, TEMP_DIR⟩, true⟩ ∧
    (runScript ⟨some 9, some 4, false, none⟩ [escapeSeq [69, 55, 48, 48]]
        (.ok (some 2)) .atCleanup).exitCode = 0 ∧
    (runScript ⟨some 9, some 4, false, none⟩ [escapeSeq [69, 55, 48, 48]]
        (.ok (some 2)) .atCleanup).errorLogged = true) :=
  ⟨by decide, by decide, by decide, by decide,
    copyFailure_spec ⟨some 9, some 4, false, none⟩ [escapeSeq [69, 55, 48, 48]]
      [0xE700] 2 4 (by decide) (by decide) (by decide) (by decide)⟩

/-- C8: extraction is not total: the content `\u{110000}` contains a
regex-well-formed escape (all its digits are hex digits) whose value
`0x110000` exceeds `0x10FFFF`, `String.fromCodePoint` rejects that
value, extraction produces no result, and the run aborts with exit
code 1 (uncaught exception) before any engine invocation. -/
theorem extract_not_total :
    (∀ d ∈ [49, 49, 48, 48, 48, 48], isHexDigit d = true) ∧
    parseHex [49, 49, 48, 48, 48, 48] = 0x110000 ∧
    0x10FFFF < 0x110000 ∧
    fromCodePoint 0x110000 = none ∧
    extractUnicodes [escapeSeq [49, 49, 48, 48, 48, 48]] = none ∧
    runScript ⟨some 1000, none, false, none⟩
        [escapeSeq [49, 49, 48, 48, 48, 48]] (.ok none) .noFailure
      = ⟨⟨some 1000, none, false, none⟩, 1, none, false⟩ := by
  refine ⟨by decide, by decide, by decide, by decide, by decide, by decide⟩

/-- C9: every run that reaches the subsetting step invokes the engine
with hinting disabled, with the text argument exactly the extracted
character string, reading the source font and writing into the
temporary directory — whatever the engine then does and whatever the
publish step does. -/
theorem engineCall_spec (w : World) (files : List (List Nat))
    (text : List Nat) (engine : EngineResult) (pubFail : PublishFailure)
    (hfont : w.fontSource.isSome = true)
    (hex : extractUnicodes files = some text) (hne : text ≠ []) :
    (runScript w files engine pubFail).engineCall =
      some ⟨FONT_SOURCE, ⟨text, false⟩, TEMP_DIR⟩ := by
  obtain ⟨fs, pub, td, tf⟩ := w
  have h1 : (World.mk fs pub td tf).fontSource.isNone = false := by
    cases hfs : fs
    · rw [hfs] at hfont
      cases hfont
    · rfl
  cases engine with
  | err => simp [runScript, h1, hex, hne]
  | ok produced =>
    cases produced with
    | none =>
      cases tf with
      | none => simp [runScript, h1, hex, hne]
      | some t => cases pubFail <;> simp [runScript, h1, hex, hne]
    | some s => cases pubFail <;> simp [runScript, h1, hex, hne]

/-- Witness for C9. -/
theorem engineCall_spec_witness :
    (⟨some 9, some 4, false, none⟩ : World).fontSource.isSome = true ∧
    extractUnicodes [escapeSeq [69, 55, 48, 48]] = some [0xE700] ∧
    ([0xE700] : List Nat) ≠ [] ∧
    (runScript ⟨some 9, some 4, false, none⟩ [escapeSeq [69, 55, 48, 48]]
        .err .noFailure).engineCall =
      some ⟨FONT_SOURCE, ⟨[0xE700], false⟩, TEMP_DIR⟩ :=
  ⟨by decide, by decide, by decide,
    engineCall_spec _ _ _ _ _ (by decide) (by decide) (by decide)⟩

/-- C10: extraction is deterministic: on equal file lists with equal
contents, `extractUnicodes` returns the identical output (the set's
elements in its fixed insertion order). -/
theorem extractUnicodes_deterministic (files₁ files₂ : List (List Nat))
    (h : files₁ = files₂) :
    extractUnicodes files₁ = extractUnicodes files₂ := by
  rw [h]

/-- Witness for C10. -/
theorem extractUnicodes_deterministic_witness :
    extractUnicodes [escapeSeq [69, 55, 48, 48]] =
      extractUnicodes [escapeSeq [69, 55, 48, 48]] :=
  extractUnicodes_deterministic _ _ rfl

end SubsetFont
